import Mathlib

/-!
Shallow embedding of the diarization / transcript-alignment core of
voice-to-md (src/diarizer.py, src/main.py, src/config.py).

Sample values are modelled as rationals; time instants (seconds) are
rationals.  The embedding follows the Python source line by line:

* `Diarizer.diarize` (src/diarizer.py): chunking of the loaded audio buffer,
  the `len(embeddings) < 2` short-circuit, the MeanShift clustering call
  (modelled as an opaque function that may fail), the
  `sorted(set(labels))` label map, and the merge loop over
  `zip(chunk_times, labels)`.
* `VoiceToMdApp._assign_speakers` (src/main.py): the per-span linear scan
  over speaker segments with the `"Unknown"` fallback.

The external collaborators (librosa loading, the SpeechBrain embedding
model, sklearn's MeanShift) are opaque to this core: the audio buffer is
taken as the already-loaded sample list, and the embedding+clustering
composite is a parameter `cluster` returning `none` when the library call
raises.
-/

namespace VoiceToMd

/-- `SAMPLE_RATE` from src/config.py. -/
def SAMPLE_RATE : ℕ := 16000

/-- `CHUNK_DURATION_SEC` from src/config.py. -/
def CHUNK_DURATION_SEC : ℕ := 10

/-- `chunk_length = SAMPLE_RATE * CHUNK_DURATION_SEC` (src/diarizer.py line 45). -/
def chunk_length : ℕ := SAMPLE_RATE * CHUNK_DURATION_SEC

/-- The loop indices `i` of `for i in range(0, len(audio), chunk_length)`
(src/diarizer.py line 49). -/
def chunkStarts (n : ℕ) : List ℕ :=
  (List.range ((n + chunk_length - 1) / chunk_length)).map (· * chunk_length)

/-- `audio[i:i + chunk_length]` (src/diarizer.py line 50). -/
def rawWindow (audio : List ℚ) (i : ℕ) : List ℚ :=
  (audio.drop i).take chunk_length

/-- The kept loop indices: windows with at least `SAMPLE_RATE * 2` samples are
kept, shorter ones are skipped (src/diarizer.py lines 52-53). -/
def keptStarts (audio : List ℚ) : List ℕ :=
  (chunkStarts audio.length).filter (fun i => SAMPLE_RATE * 2 ≤ (rawWindow audio i).length)

/-- `np.pad(chunk, (0, chunk_length - len(chunk)))` applied when the window is
shorter than `chunk_length` (src/diarizer.py lines 55-56). -/
def padChunk (c : List ℚ) : List ℚ :=
  if c.length < chunk_length then c ++ List.replicate (chunk_length - c.length) 0 else c

/-- The `chunks` list built by the chunking loop (src/diarizer.py lines 49-57). -/
def keptChunks (audio : List ℚ) : List (List ℚ) :=
  (keptStarts audio).map (fun i => padChunk (rawWindow audio i))

/-- The `chunk_times` list: `start_sec = i / SAMPLE_RATE`,
`end_sec = min((i + chunk_length) / SAMPLE_RATE, duration)`
(src/diarizer.py lines 58-60), with `duration = len(audio) / sr` (line 42). -/
def chunkTimes (audio : List ℚ) : List (ℚ × ℚ) :=
  (keptStarts audio).map (fun (i : ℕ) =>
    (((i : ℕ) : ℚ) / (SAMPLE_RATE : ℚ),
     min ((((i : ℕ) : ℚ) + (chunk_length : ℚ)) / (SAMPLE_RATE : ℚ))
         ((audio.length : ℚ) / (SAMPLE_RATE : ℚ))))

/-- Closed form for the number of kept chunks of a buffer of `n` samples:
the windows start at `0, chunk_length, 2*chunk_length, …` and a window is
kept exactly when at least `SAMPLE_RATE * 2` samples remain from its start.
Not part of the source; used to state and prove the chunker lemmas. -/
def keptCount (n : ℕ) : ℕ :=
  if SAMPLE_RATE * 2 ≤ n then (n - SAMPLE_RATE * 2) / chunk_length + 1 else 0

/-- `label_map[label]`, where
`unique_labels = sorted(set(labels))` and
`label_map = {label: f"Speaker {i + 1}" for i, label in enumerate(unique_labels)}`
(src/diarizer.py lines 89-90). -/
def speakerOf (labels : List ℤ) (l : ℤ) : String :=
  "Speaker " ++ toString ((Finset.sort (· ≤ ·) labels.toFinset).indexOf l + 1)

/-- The merge loop of src/diarizer.py lines 93-111: state
`(current_start, current_end, current_speaker)` is `none` initially; a chunk
with the current speaker extends `current_end`, any other speaker closes the
running segment and starts a new one; the final running segment is appended. -/
def mergeLoop : List ((ℚ × ℚ) × String) → Option (ℚ × ℚ × String) →
    List (ℚ × ℚ × String) → List (ℚ × ℚ × String)
  | [], none, segs => segs
  | [], some c, segs => segs ++ [c]
  | (t, spk) :: rest, none, segs => mergeLoop rest (some (t.1, t.2, spk)) segs
  | (t, spk) :: rest, some c, segs =>
      if spk = c.2.2 then mergeLoop rest (some (c.1, t.2, c.2.2)) segs
      else mergeLoop rest (some (t.1, t.2, spk)) (segs ++ [c])

/-- `for (start, end), label in zip(chunk_times, labels): speaker = label_map[label]; ...`
(src/diarizer.py lines 93-111) packaged as a function of the parallel lists. -/
def mergeSegments (chunk_times : List (ℚ × ℚ)) (labels : List ℤ) :
    List (ℚ × ℚ × String) :=
  mergeLoop ((chunk_times.zip labels).map (fun p => (p.1, speakerOf labels p.2))) none []

/-- `Diarizer.diarize` (src/diarizer.py lines 28-113).  `cluster` stands for
the composite of per-chunk embedding extraction and
`MeanShift(bandwidth=None).fit_predict`; it returns `none` when the library
call raises, in which case the source falls back to
`labels = [0] * len(embeddings)` (lines 81-86).  With fewer than two chunks
the clustering is never invoked and `labels = [0]` (lines 77-79).  With no
chunks at all the function returns the single full-duration segment
(lines 62-64). -/
def diarize (cluster : List (List ℚ) → Option (List ℤ)) (audio : List ℚ) :
    List (ℚ × ℚ × String) :=
  let duration : ℚ := (audio.length : ℚ) / (SAMPLE_RATE : ℚ)
  let chunks := keptChunks audio
  if chunks.isEmpty then [(0, duration, "Speaker 1")]
  else
    let labels : List ℤ :=
      if chunks.length < 2 then [0]
      else
        match cluster chunks with
        | some ls => ls
        | none => List.replicate chunks.length 0
    mergeSegments (chunkTimes audio) labels

/-- `TranscriptionSegment` (src/transcriber.py lines 9-15); `end` is a Lean
keyword so the field is called `stop`. -/
structure TranscriptionSegment where
  start : ℚ
  stop : ℚ
  text : String
deriving DecidableEq, Repr

/-- The inner scan of `VoiceToMdApp._assign_speakers` (src/main.py
lines 163-168): `speaker = "Unknown"`, then the first speaker segment with
`spk_start <= trans_start < spk_end` wins via `break`. -/
def findSpeaker (trans_start : ℚ) : List (ℚ × ℚ × String) → String
  | [] => "Unknown"
  | seg :: rest =>
      if seg.1 ≤ trans_start ∧ trans_start < seg.2.1 then seg.2.2
      else findSpeaker trans_start rest

/-- One aligned record of `_assign_speakers` (src/main.py lines 169-174);
the Python dict with keys `speaker`, `start`, `end`, `text`. -/
structure AlignedRecord where
  speaker : String
  start : ℚ
  stop : ℚ
  text : String
deriving DecidableEq, Repr

/-- `VoiceToMdApp._assign_speakers` (src/main.py lines 155-175). -/
def assignSpeakers (transcription_segments : List TranscriptionSegment)
    (speaker_segments : List (ℚ × ℚ × String)) : List AlignedRecord :=
  transcription_segments.map (fun t =>
    { speaker := findSpeaker t.start speaker_segments
      start := t.start
      stop := t.stop
      text := t.text })

/-! ### Chunker lemmas: closed form of the kept windows -/

lemma chunk_length_pos : 0 < chunk_length := by
  norm_num [chunk_length, SAMPLE_RATE, CHUNK_DURATION_SEC]

lemma min_len_le_chunk_length : SAMPLE_RATE * 2 ≤ chunk_length := by
  norm_num [chunk_length, SAMPLE_RATE, CHUNK_DURATION_SEC]

lemma rawWindow_length (audio : List ℚ) (i : ℕ) :
    (rawWindow audio i).length = min chunk_length (audio.length - i) := by
  simp [rawWindow]

lemma filter_range_lt (K m : ℕ) :
    (List.range m).filter (fun j => decide (j < K)) = List.range (min K m) := by
  induction m with
  | zero => simp
  | succ m ih =>
    rw [List.range_succ, List.filter_append, ih]
    by_cases h : m < K
    · have h1 : min K (m + 1) = m + 1 := by omega
      have h2 : min K m = m := by omega
      simp [h, h1, h2, List.range_succ]
    · have h1 : min K (m + 1) = min K m := by omega
      simp [h, h1]

lemma lt_keptCount_iff {n j : ℕ} :
    j < keptCount n ↔ j * chunk_length + SAMPLE_RATE * 2 ≤ n := by
  unfold keptCount
  by_cases h : SAMPLE_RATE * 2 ≤ n
  · rw [if_pos h, Nat.lt_succ_iff, Nat.le_div_iff_mul_le chunk_length_pos]
    omega
  · rw [if_neg h]
    omega

lemma keptCount_le (n : ℕ) : keptCount n ≤ (n + chunk_length - 1) / chunk_length := by
  by_cases h : keptCount n = 0
  · rw [h]
    exact Nat.zero_le _
  · have h1 : keptCount n - 1 < keptCount n := by omega
    have h2 := lt_keptCount_iff.mp h1
    have h3 : (keptCount n - 1) * chunk_length + 1 ≤ n := by
      have := min_len_le_chunk_length
      have : 0 < SAMPLE_RATE * 2 := by norm_num [SAMPLE_RATE]
      omega
    have h4 : keptCount n ≤ (n - 1) / chunk_length + 1 := by
      have := (Nat.le_div_iff_mul_le chunk_length_pos (x := keptCount n - 1) (y := n - 1)).mpr
        (by omega)
      omega
    have h5 : (n - 1) / chunk_length + 1 ≤ (n + chunk_length - 1) / chunk_length := by
      have hc := chunk_length_pos
      have := Nat.add_div_right (n - 1) chunk_length_pos
      have hle : n - 1 + chunk_length ≤ n + chunk_length - 1 ∨ n = 0 := by omega
      rcases hle with hle | hle
      · calc (n - 1) / chunk_length + 1 = (n - 1 + chunk_length) / chunk_length := by omega
          _ ≤ (n + chunk_length - 1) / chunk_length := Nat.div_le_div_right hle
      · subst hle
        simp at h2
        omega
    omega

lemma keptStarts_eq (audio : List ℚ) :
    keptStarts audio = (List.range (keptCount audio.length)).map (· * chunk_length) := by
  rw [keptStarts, chunkStarts, List.filter_map]
  have hcongr : (List.range ((audio.length + chunk_length - 1) / chunk_length)).filter
      ((fun i => decide (SAMPLE_RATE * 2 ≤ (rawWindow audio i).length)) ∘ (· * chunk_length)) =
      (List.range ((audio.length + chunk_length - 1) / chunk_length)).filter
      (fun j => decide (j < keptCount audio.length)) := by
    apply List.filter_congr
    intro j _
    simp only [Function.comp_apply, decide_eq_decide, rawWindow_length]
    rw [lt_keptCount_iff, le_min_iff]
    have h1 := min_len_le_chunk_length
    have h2 : 0 < SAMPLE_RATE * 2 := by norm_num [SAMPLE_RATE]
    omega
  rw [hcongr, filter_range_lt, Nat.min_eq_left (keptCount_le audio.length)]

lemma keptStarts_length (audio : List ℚ) :
    (keptStarts audio).length = keptCount audio.length := by
  rw [keptStarts_eq, List.length_map, List.length_range]

lemma chunkTimes_eq (audio : List ℚ) :
    chunkTimes audio = (List.range (keptCount audio.length)).map (fun j =>
      (((j * chunk_length : ℕ) : ℚ) / (SAMPLE_RATE : ℚ),
       min ((((j * chunk_length : ℕ) : ℚ) + (chunk_length : ℚ)) / (SAMPLE_RATE : ℚ))
           ((audio.length : ℚ) / (SAMPLE_RATE : ℚ)))) := by
  rw [chunkTimes, keptStarts_eq, List.map_map]
  rfl

lemma chunkTimes_length (audio : List ℚ) :
    (chunkTimes audio).length = keptCount audio.length := by
  rw [chunkTimes_eq, List.length_map, List.length_range]

lemma keptChunks_length (audio : List ℚ) :
    (keptChunks audio).length = keptCount audio.length := by
  rw [keptChunks, List.length_map, keptStarts_length]

lemma chunkTimes_getElem (audio : List ℚ) (j : ℕ) (h : j < (chunkTimes audio).length) :
    (chunkTimes audio)[j] =
      (((j * chunk_length : ℕ) : ℚ) / (SAMPLE_RATE : ℚ),
       min ((((j * chunk_length : ℕ) : ℚ) + (chunk_length : ℚ)) / (SAMPLE_RATE : ℚ))
           ((audio.length : ℚ) / (SAMPLE_RATE : ℚ))) := by
  have h' : j < (List.range (keptCount audio.length)).length := by
    rw [List.length_range, ← chunkTimes_length]
    exact h
  simp only [chunkTimes_eq, List.getElem_map, List.getElem_range]

/-! ### Time-range arithmetic for the kept chunks -/

lemma sample_rate_q_pos : (0 : ℚ) < (SAMPLE_RATE : ℚ) := by
  norm_num [SAMPLE_RATE]

lemma chunkTimes_start_mono (audio : List ℚ) (j : ℕ) (h : j + 1 < (chunkTimes audio).length) :
    ((chunkTimes audio).get ⟨j, Nat.lt_of_succ_lt h⟩).1 ≤ ((chunkTimes audio).get ⟨j + 1, h⟩).1 := by
  simp only [List.get_eq_getElem, chunkTimes_getElem]
  apply (div_le_div_iff_of_pos_right sample_rate_q_pos).mpr
  exact_mod_cast Nat.mul_le_mul_right chunk_length (Nat.le_succ j)

lemma chunkTimes_gapless (audio : List ℚ) (j : ℕ) (h : j + 1 < (chunkTimes audio).length) :
    ((chunkTimes audio).get ⟨j, Nat.lt_of_succ_lt h⟩).2 = ((chunkTimes audio).get ⟨j + 1, h⟩).1 := by
  simp only [List.get_eq_getElem, chunkTimes_getElem]
  have hK : j + 1 < keptCount audio.length := by
    rw [← chunkTimes_length]
    exact h
  have hle : (j + 1) * chunk_length + SAMPLE_RATE * 2 ≤ audio.length := lt_keptCount_iff.mp hK
  have hlen : j * chunk_length + chunk_length ≤ audio.length := by
    have hexp : (j + 1) * chunk_length = j * chunk_length + chunk_length := by ring
    have : 0 < SAMPLE_RATE * 2 := by norm_num [SAMPLE_RATE]
    omega
  have hcast : ((j * chunk_length : ℕ) : ℚ) + (chunk_length : ℚ) = (((j + 1) * chunk_length : ℕ) : ℚ) := by
    push_cast
    ring
  rw [min_eq_left, hcast]
  apply (div_le_div_iff_of_pos_right sample_rate_q_pos).mpr
  calc ((j * chunk_length : ℕ) : ℚ) + (chunk_length : ℚ)
      = ((j * chunk_length + chunk_length : ℕ) : ℚ) := by push_cast; ring
    _ ≤ ((audio.length : ℕ) : ℚ) := by exact_mod_cast hlen

lemma chunkTimes_head_start (audio : List ℚ) (h : chunkTimes audio ≠ []) :
    ((chunkTimes audio).head h).1 = 0 := by
  rw [List.head_eq_getElem]
  simp only [chunkTimes_getElem]
  norm_num

lemma chunkTimes_end_le_duration (audio : List ℚ) (t : ℚ × ℚ) (ht : t ∈ chunkTimes audio) :
    t.2 ≤ (audio.length : ℚ) / (SAMPLE_RATE : ℚ) := by
  rw [chunkTimes_eq] at ht
  obtain ⟨j, _, rfl⟩ := List.mem_map.mp ht
  exact min_le_right _ _

lemma chunkTimes_trailing_gap (audio : List ℚ) (h : chunkTimes audio ≠ []) :
    (audio.length : ℚ) / (SAMPLE_RATE : ℚ) - ((chunkTimes audio).getLast h).2 < 2 := by
  rw [List.getLast_eq_getElem]
  simp only [chunkTimes_getElem]
  set K := keptCount audio.length with hK
  have hlen : (chunkTimes audio).length = K := chunkTimes_length audio
  have hK1 : 1 ≤ K := by
    have : 0 < (chunkTimes audio).length := List.length_pos.mpr h
    omega
  have hj : (chunkTimes audio).length - 1 = K - 1 := by omega
  rw [hj]
  have hupper : audio.length < K * chunk_length + SAMPLE_RATE * 2 := by
    by_contra hcon
    push_neg at hcon
    have := lt_keptCount_iff.mpr hcon
    omega
  have hKL : (K - 1) * chunk_length + chunk_length = K * chunk_length := by
    have h9 : K - 1 + 1 = K := Nat.succ_pred_eq_of_pos hK1
    calc (K - 1) * chunk_length + chunk_length
        = (K - 1 + 1) * chunk_length := by ring
      _ = K * chunk_length := by rw [h9]
  have ha : (((K - 1) * chunk_length : ℕ) : ℚ) + (chunk_length : ℚ) =
      (((K - 1) * chunk_length + chunk_length : ℕ) : ℚ) := by
    push_cast
    ring
  rw [ha, hKL]
  rcases le_total ((K * chunk_length : ℕ) : ℚ) ((audio.length : ℕ) : ℚ) with hc | hc
  · rw [min_eq_left ((div_le_div_iff_of_pos_right sample_rate_q_pos).mpr hc), div_sub_div_same,
      div_lt_iff₀ sample_rate_q_pos]
    have hcast : ((audio.length : ℕ) : ℚ) < ((K * chunk_length + SAMPLE_RATE * 2 : ℕ) : ℚ) := by
      exact_mod_cast hupper
    push_cast at hcast ⊢
    linarith
  · rw [min_eq_right ((div_le_div_iff_of_pos_right sample_rate_q_pos).mpr hc), sub_self]
    norm_num

/-! ### Merge-loop lemmas -/

lemma mergeLoop_acc (items : List ((ℚ × ℚ) × String)) :
    ∀ (cur : Option (ℚ × ℚ × String)) (segs : List (ℚ × ℚ × String)),
      mergeLoop items cur segs = segs ++ mergeLoop items cur [] := by
  induction items with
  | nil =>
    intro cur segs
    cases cur with
    | none => simp [mergeLoop]
    | some c => simp [mergeLoop]
  | cons x rest ih =>
    intro cur segs
    obtain ⟨t, spk⟩ := x
    cases cur with
    | none =>
      show mergeLoop rest (some (t.1, t.2, spk)) segs =
        segs ++ mergeLoop rest (some (t.1, t.2, spk)) []
      exact ih _ _
    | some c =>
      by_cases hs : spk = c.2.2
      · simp only [mergeLoop, if_pos hs]
        exact ih _ _
      · simp only [mergeLoop, if_neg hs]
        rw [ih _ (segs ++ [c]), ih _ ([] ++ [c])]
        simp

lemma mergeLoop_some_head (items : List ((ℚ × ℚ) × String)) :
    ∀ c : ℚ × ℚ × String, ∃ e tl,
      mergeLoop items (some c) [] = (c.1, e, c.2.2) :: tl := by
  induction items with
  | nil =>
    intro c
    exact ⟨c.2.1, [], rfl⟩
  | cons x rest ih =>
    intro c
    obtain ⟨t, spk⟩ := x
    by_cases hs : spk = c.2.2
    · obtain ⟨e, tl, heq⟩ := ih (c.1, t.2, c.2.2)
      refine ⟨e, tl, ?_⟩
      simp only [mergeLoop, if_pos hs]
      exact heq
    · refine ⟨c.2.1, mergeLoop rest (some (t.1, t.2, spk)) [], ?_⟩
      simp only [mergeLoop, if_neg hs]
      rw [mergeLoop_acc]
      simp

lemma mergeLoop_some_chain (items : List ((ℚ × ℚ) × String)) :
    ∀ c : ℚ × ℚ × String,
      List.Chain' (fun p q => p.1.2 = q.1.1) items →
      (∀ p ∈ items.head?, c.2.1 = p.1.1) →
      List.Chain' (fun a b : ℚ × ℚ × String => a.2.1 = b.1 ∧ a.2.2 ≠ b.2.2)
        (mergeLoop items (some c) []) := by
  induction items with
  | nil =>
    intro c _ _
    simp [mergeLoop]
  | cons x rest ih =>
    intro c hchain hlink
    obtain ⟨t, spk⟩ := x
    rw [List.chain'_cons'] at hchain
    obtain ⟨hlink2, hchain2⟩ := hchain
    by_cases hs : spk = c.2.2
    · simp only [mergeLoop, if_pos hs]
      exact ih (c.1, t.2, c.2.2) hchain2 (fun p hp => hlink2 p hp)
    · simp only [mergeLoop, if_neg hs]
      rw [mergeLoop_acc, List.nil_append, List.singleton_append]
      obtain ⟨e, tl, heq⟩ := mergeLoop_some_head rest (t.1, t.2, spk)
      have hM := ih (t.1, t.2, spk) hchain2 (fun p hp => hlink2 p hp)
      rw [List.chain'_cons']
      refine ⟨?_, hM⟩
      intro y hy
      rw [heq] at hy
      simp only [List.head?_cons, Option.mem_def, Option.some.injEq] at hy
      subst hy
      have hct : c.2.1 = t.1 := hlink (t, spk) rfl
      exact ⟨hct, fun hc => hs hc.symm⟩

lemma mergeLoop_some_length (items : List ((ℚ × ℚ) × String)) :
    ∀ c : ℚ × ℚ × String, (mergeLoop items (some c) []).length ≤ items.length + 1 := by
  induction items with
  | nil =>
    intro c
    simp [mergeLoop]
  | cons x rest ih =>
    intro c
    obtain ⟨t, spk⟩ := x
    by_cases hs : spk = c.2.2
    · simp only [mergeLoop, if_pos hs, List.length_cons]
      exact le_trans (ih _) (by omega)
    · simp only [mergeLoop, if_neg hs, List.length_cons]
      rw [mergeLoop_acc]
      have := ih (t.1, t.2, spk)
      simp only [List.nil_append, List.singleton_append, List.length_cons]
      omega

lemma mergeLoop_none_length (items : List ((ℚ × ℚ) × String)) :
    (mergeLoop items none []).length ≤ items.length := by
  cases items with
  | nil => simp [mergeLoop]
  | cons x rest =>
    obtain ⟨t, spk⟩ := x
    show (mergeLoop rest (some (t.1, t.2, spk)) []).length ≤ rest.length + 1
    exact mergeLoop_some_length rest _

lemma mergeLoop_const (items : List ((ℚ × ℚ) × String)) :
    ∀ c : ℚ × ℚ × String, (∀ p ∈ items, p.2 = c.2.2) →
      mergeLoop items (some c) [] =
        [(c.1, (items.map (fun p => p.1.2)).getLastD c.2.1, c.2.2)] := by
  induction items with
  | nil =>
    intro c _
    simp [mergeLoop]
  | cons x rest ih =>
    intro c hall
    obtain ⟨t, spk⟩ := x
    have hs : spk = c.2.2 := hall (t, spk) (List.mem_cons_self _ _)
    simp only [mergeLoop, if_pos hs]
    rw [ih (c.1, t.2, c.2.2) (fun p hp => hall p (List.mem_cons_of_mem _ hp))]
    rw [List.map_cons, List.getLastD_cons]

/-! ### Speaker-label map lemmas: `sorted(set(labels))` -/

lemma indexOf_sorted_nodup (l : List ℤ) (hs : l.Sorted (· ≤ ·)) (hn : l.Nodup) :
    ∀ x ∈ l, List.indexOf x l = (l.filter (fun y => decide (y < x))).length := by
  induction l with
  | nil =>
    intro x hx
    cases hx
  | cons a t ih =>
    intro x hx
    rw [List.sorted_cons] at hs
    obtain ⟨ha, hst⟩ := hs
    rw [List.nodup_cons] at hn
    obtain ⟨hna, hnt⟩ := hn
    by_cases hxa : x = a
    · subst hxa
      rw [List.indexOf_cons_self]
      symm
      rw [List.length_eq_zero, List.filter_eq_nil_iff]
      intro y hy
      simp only [decide_eq_true_eq]
      rcases List.mem_cons.mp hy with hya | hyt
      · subst hya
        exact lt_irrefl y
      · exact not_lt_of_le (ha y hyt)
    · have hxt : x ∈ t := by
        rcases List.mem_cons.mp hx with hcon | hyt
        · exact absurd hcon hxa
        · exact hyt
      have hax : a < x := lt_of_le_of_ne (ha x hxt) (fun h => hxa h.symm)
      rw [List.indexOf_cons_ne _ (fun h => hxa h.symm), List.filter_cons,
        if_pos (by simpa using hax), List.length_cons, ih hst hnt x hxt]

lemma length_filter_sort_eq_card (s : Finset ℤ) (p : ℤ → Prop) [DecidablePred p] :
    ((Finset.sort (· ≤ ·) s).filter (fun y => decide (p y))).length = (s.filter p).card := by
  have hperm := (Finset.sort_perm_toList (· ≤ ·) s).filter (fun y => decide (p y))
  rw [hperm.length_eq, Finset.toList]
  calc (s.val.toList.filter (fun y => decide (p y))).length
      = Multiset.card ((s.val.toList.filter (fun y => decide (p y)) : List ℤ) : Multiset ℤ) :=
        (Multiset.coe_card _).symm
    _ = Multiset.card (Multiset.filter p ((s.val.toList : List ℤ) : Multiset ℤ)) := by
        rw [Multiset.filter_coe]
    _ = Multiset.card (Multiset.filter p s.val) := by rw [Multiset.coe_toList]
    _ = (s.filter p).card := by rw [Finset.card_def, Finset.filter_val]

lemma speakerOf_eq_card (labels : List ℤ) (l : ℤ) (hl : l ∈ labels) :
    speakerOf labels l =
      "Speaker " ++ toString ((labels.toFinset.filter (fun x => x < l)).card + 1) := by
  unfold speakerOf
  congr 3
  have hsort := Finset.sort_sorted (· ≤ ·) labels.toFinset
  have hnodup := Finset.sort_nodup (· ≤ ·) labels.toFinset
  have hmem : l ∈ Finset.sort (· ≤ ·) labels.toFinset :=
    (Finset.mem_sort (· ≤ ·)).mpr (List.mem_toFinset.mpr hl)
  rw [indexOf_sorted_nodup _ hsort hnodup l hmem, length_filter_sort_eq_card]

lemma speakerOf_sorted_rank (labels : List ℤ) (i : ℕ)
    (h : i < (Finset.sort (· ≤ ·) labels.toFinset).length) :
    speakerOf labels ((Finset.sort (· ≤ ·) labels.toFinset).get ⟨i, h⟩) =
      "Speaker " ++ toString (i + 1) := by
  unfold speakerOf
  congr 3
  rw [List.get_eq_getElem]
  exact List.indexOf_getElem (Finset.sort_nodup (· ≤ ·) labels.toFinset) i h

/-! ### Merged segments over the chunker output -/

lemma padChunk_length (c : List ℚ) (h : c.length ≤ chunk_length) :
    (padChunk c).length = chunk_length := by
  unfold padChunk
  split
  · simp only [List.length_append, List.length_replicate]
    omega
  · omega

lemma diarize_nonempty (cluster : List (List ℚ) → Option (List ℤ)) (audio : List ℚ)
    (h : keptChunks audio ≠ []) :
    diarize cluster audio = mergeSegments (chunkTimes audio)
      (if (keptChunks audio).length < 2 then [0]
       else
         match cluster (keptChunks audio) with
         | some ls => ls
         | none => List.replicate (keptChunks audio).length 0) := by
  rw [diarize]
  have hb : (keptChunks audio).isEmpty = false := by
    simpa [List.isEmpty_iff] using h
  rw [hb]
  rfl

lemma speakerOf_replicate_zero (n : ℕ) (hn : n ≠ 0) :
    speakerOf (List.replicate n (0 : ℤ)) 0 = "Speaker 1" := by
  unfold speakerOf
  rw [List.toFinset_replicate_of_ne_zero hn, Finset.sort_singleton]
  decide

lemma getLast_cons_snd (rest : List (ℚ × ℚ)) :
    ∀ t : ℚ × ℚ, ((t :: rest).getLast (List.cons_ne_nil _ _)).2 =
      (rest.map (fun r => r.2)).getLastD t.2 := by
  induction rest with
  | nil =>
    intro t
    rfl
  | cons r rest' ih =>
    intro t
    rw [List.getLast_cons (List.cons_ne_nil _ _), List.map_cons, List.getLastD_cons]
    exact ih r

lemma zip_replicate_map (g : ℤ → String) (z : ℤ) (times : List (ℚ × ℚ)) :
    (times.zip (List.replicate times.length z)).map (fun p => (p.1, g p.2)) =
      times.map (fun t => (t, g z)) := by
  induction times with
  | nil => rfl
  | cons t rest ih =>
    simp only [List.length_cons, List.replicate_succ, List.zip_cons_cons, List.map_cons]
    rw [ih]

lemma mergeLoop_const_map (times : List (ℚ × ℚ)) (spk : String) (h : times ≠ []) :
    mergeLoop (times.map (fun t => (t, spk))) none [] =
      [((times.head h).1, (times.getLast h).2, spk)] := by
  cases times with
  | nil => exact absurd rfl h
  | cons t rest =>
    rw [List.map_cons]
    show mergeLoop (rest.map (fun r => (r, spk))) (some (t.1, t.2, spk)) [] = _
    rw [mergeLoop_const (rest.map (fun r => (r, spk))) (t.1, t.2, spk)
      (fun p hp => by obtain ⟨r, _, rfl⟩ := List.mem_map.mp hp; rfl)]
    rw [List.map_map]
    have hcomp : ((fun p : (ℚ × ℚ) × String => p.1.2) ∘ (fun r : ℚ × ℚ => (r, spk))) =
        fun r : ℚ × ℚ => r.2 := rfl
    rw [hcomp, ← getLast_cons_snd rest t]
    rfl

lemma mergeItems_chain (audio : List ℚ) (labels : List ℤ) :
    List.Chain' (fun p q : (ℚ × ℚ) × String => p.1.2 = q.1.1)
      (((chunkTimes audio).zip labels).map (fun p => (p.1, speakerOf labels p.2))) := by
  rw [List.chain'_iff_get]
  intro i h
  simp only [List.length_map, List.length_zip] at h
  have h2 : i + 1 < (chunkTimes audio).length := by
    have := min_le_left (chunkTimes audio).length labels.length
    omega
  have hg := chunkTimes_gapless audio i h2
  simp only [List.get_eq_getElem] at hg ⊢
  simp only [List.getElem_map, List.getElem_zip]
  exact hg

lemma mergeSegments_length_le (times : List (ℚ × ℚ)) (labels : List ℤ) :
    (mergeSegments times labels).length ≤ times.length := by
  rw [mergeSegments]
  refine le_trans (mergeLoop_none_length _) ?_
  simp only [List.length_map, List.length_zip]
  exact min_le_left _ _

lemma mergeSegments_chunk_chain (audio : List ℚ) (labels : List ℤ) :
    List.Chain' (fun a b : ℚ × ℚ × String => a.2.1 = b.1 ∧ a.2.2 ≠ b.2.2)
      (mergeSegments (chunkTimes audio) labels) := by
  rw [mergeSegments]
  have hchain := mergeItems_chain audio labels
  cases hitems : ((chunkTimes audio).zip labels).map (fun p => (p.1, speakerOf labels p.2)) with
  | nil => simp [mergeLoop]
  | cons x rest =>
    rw [hitems] at hchain
    obtain ⟨t, spk⟩ := x
    rw [List.chain'_cons'] at hchain
    show List.Chain' _ (mergeLoop rest (some (t.1, t.2, spk)) [])
    exact mergeLoop_some_chain rest (t.1, t.2, spk) hchain.2 (fun p hp => hchain.1 p hp)

lemma mergeSegments_head (times : List (ℚ × ℚ)) (labels : List ℤ)
    (ht : times ≠ []) (hl : labels ≠ []) :
    ∃ e spk tl, mergeSegments times labels = ((times.head ht).1, e, spk) :: tl := by
  cases times with
  | nil => exact absurd rfl ht
  | cons t trest =>
    cases labels with
    | nil => exact absurd rfl hl
    | cons z zrest =>
      rw [mergeSegments, List.zip_cons_cons, List.map_cons]
      obtain ⟨e, tl, heq⟩ := mergeLoop_some_head
        ((trest.zip zrest).map (fun p => (p.1, speakerOf (z :: zrest) p.2)))
        (t.1, t.2, speakerOf (z :: zrest) z)
      exact ⟨e, speakerOf (z :: zrest) z, tl, by rw [List.head_cons]; exact heq⟩

/-! ### Aligner lemmas -/

lemma findSpeaker_eq_find (x : ℚ) (segs : List (ℚ × ℚ × String)) :
    findSpeaker x segs =
      ((segs.find? (fun s => decide (s.1 ≤ x ∧ x < s.2.1))).map (fun s => s.2.2)).getD
        "Unknown" := by
  induction segs with
  | nil => rfl
  | cons s rest ih =>
    by_cases h : s.1 ≤ x ∧ x < s.2.1
    · rw [findSpeaker, if_pos h, List.find?_cons_of_pos _ (by simpa using h)]
      rfl
    · rw [findSpeaker, if_neg h, List.find?_cons_of_neg _ (by simpa using h), ih]

lemma findSpeaker_eq_unknown_iff (x : ℚ) (segs : List (ℚ × ℚ × String))
    (hno : ∀ s ∈ segs, s.2.2 ≠ "Unknown") :
    findSpeaker x segs = "Unknown" ↔ ∀ s ∈ segs, ¬(s.1 ≤ x ∧ x < s.2.1) := by
  induction segs with
  | nil => simp [findSpeaker]
  | cons s rest ih =>
    by_cases h : s.1 ≤ x ∧ x < s.2.1
    · rw [findSpeaker, if_pos h]
      constructor
      · intro heq
        exact absurd heq (hno s (List.mem_cons_self _ _))
      · intro hall
        exact absurd h (hall s (List.mem_cons_self _ _))
    · rw [findSpeaker, if_neg h, ih (fun q hq => hno q (List.mem_cons_of_mem _ hq))]
      constructor
      · intro hall q hq
        rcases List.mem_cons.mp hq with hqs | hqr
        · subst hqs
          exact h
        · exact hall q hqr
      · intro hall q hq
        exact hall q (List.mem_cons_of_mem _ hq)

/-! ### Concrete buffers used as witnesses -/

lemma keptCount_32000 : keptCount 32000 = 1 := by
  norm_num [keptCount, SAMPLE_RATE, chunk_length, CHUNK_DURATION_SEC]

lemma keptCount_320000 : keptCount 320000 = 2 := by
  norm_num [keptCount, SAMPLE_RATE, chunk_length, CHUNK_DURATION_SEC]

lemma chunkTimes_rep32000_length : (chunkTimes (List.replicate 32000 (0 : ℚ))).length = 1 := by
  rw [chunkTimes_length, List.length_replicate, keptCount_32000]

lemma chunkTimes_rep32000_ne : chunkTimes (List.replicate 32000 (0 : ℚ)) ≠ [] := by
  rw [← List.length_pos_iff_ne_nil, chunkTimes_rep32000_length]
  norm_num

lemma keptChunks_rep32000_length : (keptChunks (List.replicate 32000 (0 : ℚ))).length = 1 := by
  rw [keptChunks_length, List.length_replicate, keptCount_32000]

lemma keptChunks_rep320000_length :
    (keptChunks (List.replicate 320000 (0 : ℚ))).length = 2 := by
  rw [keptChunks_length, List.length_replicate, keptCount_320000]

lemma keptStarts_rep32000 : keptStarts (List.replicate 32000 (0 : ℚ)) = [0] := by
  rw [keptStarts_eq, List.length_replicate, keptCount_32000]
  rfl

lemma sort_pair_toFinset :
    Finset.sort (· ≤ ·) (([1, 0] : List ℤ).toFinset) = [0, 1] := by
  have h : ([1, 0] : List ℤ).toFinset = insert 0 {1} := by
    ext x
    simp
    omega
  rw [h, Finset.sort_insert]
  · rw [Finset.sort_singleton]
  · intro b hb
    simp only [Finset.mem_singleton] at hb
    subst hb
    norm_num
  · simp

lemma speakerOf_pair_one : speakerOf [1, 0] 1 = "Speaker 2" := by
  unfold speakerOf
  rw [sort_pair_toFinset]
  decide

lemma speakerOf_pair_zero : speakerOf [1, 0] 0 = "Speaker 1" := by
  unfold speakerOf
  rw [sort_pair_toFinset]
  decide

/-! ### Claims -/

/-- C1 (corrected).  Counterexample to the claim as stated: with the single
speaker segment `(0, 2, "Unknown")` and a span starting at `0`, the produced
record's speaker is `"Unknown"` even though the segment's half-open interval
`[0, 2)` does contain the span's start, so "speaker is Unknown iff no
segment's `[start,end)` contains the span's start" fails in the
"only if" direction. -/
theorem C1_counterexample :
    assignSpeakers [{ start := 0, stop := 1, text := "hi" }] [(0, 2, "Unknown")] =
      [{ speaker := "Unknown", start := 0, stop := 1, text := "hi" }] ∧
    ((0 : ℚ) ≤ 0 ∧ (0 : ℚ) < 2) := by
  refine ⟨?_, le_refl 0, by norm_num⟩
  rfl

/-- C1 (amended): the aligner maps each transcript span, in order, to a
record that keeps the span's start, end and text and whose speaker is the
label of the first speaker segment whose `[start, end)` contains the span's
start, and `"Unknown"` when no segment does; moreover, when no input segment
itself carries the literal label `"Unknown"`, the produced speaker is
`"Unknown"` if and only if no segment's `[start, end)` contains the span's
start.  The span's end instant never influences the assignment (the speaker
is a function of the span's start alone). -/
theorem C1_alignment (trans : List TranscriptionSegment) (spk : List (ℚ × ℚ × String)) :
    assignSpeakers trans spk = trans.map (fun t =>
      { speaker := ((spk.find? (fun s => decide (s.1 ≤ t.start ∧ t.start < s.2.1))).map
          (fun s => s.2.2)).getD "Unknown"
        start := t.start
        stop := t.stop
        text := t.text }) ∧
    ((∀ s ∈ spk, s.2.2 ≠ "Unknown") →
      ∀ x : ℚ, (findSpeaker x spk = "Unknown" ↔ ∀ s ∈ spk, ¬(s.1 ≤ x ∧ x < s.2.1))) := by
  constructor
  · rw [assignSpeakers]
    apply List.map_congr_left
    intro t _
    rw [findSpeaker_eq_find]
  · intro hno x
    exact findSpeaker_eq_unknown_iff x spk hno

/-- Witness for C1: the spec's end-to-end scenario segments carry no
`"Unknown"` label, and the span starting at `20` is assigned `"Unknown"`
exactly because neither `[0,5)` nor `[5,12)` contains `20`. -/
theorem C1_alignment_witness :
    findSpeaker 20 [((0 : ℚ), (5 : ℚ), "Speaker 1"), ((5 : ℚ), (12 : ℚ), "Speaker 2")] =
        "Unknown" ↔
      ∀ s ∈ [((0 : ℚ), (5 : ℚ), "Speaker 1"), ((5 : ℚ), (12 : ℚ), "Speaker 2")],
        ¬(s.1 ≤ 20 ∧ (20 : ℚ) < s.2.1) :=
  (C1_alignment [] _).2 (by decide) 20

/-- C2 (confirmed): the display label of a raw cluster label `l` is
`"Speaker k"` with `k` one more than the number of *distinct* raw labels
strictly smaller than `l` — i.e. labels are numbered in ascending order of
the sorted set of unique raw labels, starting at 1; and the numbering
depends only on the set of raw labels, never on first-seen order. -/
theorem C2_sorted_label_map (labels : List ℤ) :
    (∀ l ∈ labels, speakerOf labels l =
      "Speaker " ++ toString ((labels.toFinset.filter (fun x => x < l)).card + 1)) ∧
    (∀ labels' : List ℤ, labels.toFinset = labels'.toFinset →
      ∀ l : ℤ, speakerOf labels l = speakerOf labels' l) := by
  constructor
  · exact fun l hl => speakerOf_eq_card labels l hl
  · intro labels' h l
    unfold speakerOf
    rw [h]

/-- Witness for C2 at labels `[1, 0]`: the label `1` has one distinct label
below it, so it maps to `"Speaker 2"` even though it appears first. -/
theorem C2_sorted_label_map_witness :
    speakerOf [1, 0] 1 =
      "Speaker " ++ toString ((([1, 0] : List ℤ).toFinset.filter (fun x => x < 1)).card + 1) :=
  (C2_sorted_label_map [1, 0]).1 1 (by decide)

/-- C3 (corrected).  Counterexample to first-appearance numbering: with raw
labels `[1, 0]` the first chunk (raw label `1`) is rendered `"Speaker 2"`,
not `"Speaker 1"` — numbering follows the ascending sorted set of unique
labels, not order of first appearance. -/
theorem C3_counterexample :
    mergeSegments [(0, 10), (10, 20)] [1, 0] =
      [(0, 10, "Speaker 2"), (10, 20, "Speaker 1")] ∧
    ("Speaker 2" : String) ≠ "Speaker 1" := by
  constructor
  · rw [mergeSegments]
    show mergeLoop [((0, 10), speakerOf [1, 0] 1), ((10, 20), speakerOf [1, 0] 0)] none [] = _
    rw [speakerOf_pair_one, speakerOf_pair_zero]
    decide
  · decide

/-- C3 (amended): the number `n` in `"Speaker n"` is assigned by ascending
rank in the sorted set of unique raw cluster labels, 1-based: the i-th
smallest unique raw label is rendered `"Speaker (i+1)"`. -/
theorem C3_sorted_rank (labels : List ℤ) (i : ℕ)
    (h : i < (Finset.sort (· ≤ ·) labels.toFinset).length) :
    speakerOf labels ((Finset.sort (· ≤ ·) labels.toFinset).get ⟨i, h⟩) =
      "Speaker " ++ toString (i + 1) :=
  speakerOf_sorted_rank labels i h

/-- Witness for C3's amended theorem at labels `[1, 0]`: the smallest unique
label (`0`, sorted rank 0) is rendered `"Speaker 1"`. -/
theorem C3_sorted_rank_witness :
    speakerOf [1, 0] ((Finset.sort (· ≤ ·) ([1, 0] : List ℤ).toFinset).get
      ⟨0, by simp [sort_pair_toFinset]⟩) = "Speaker " ++ toString (0 + 1) :=
  C3_sorted_rank [1, 0] 0 (by simp [sort_pair_toFinset])

/-- C4 (confirmed): for merger output built from the chunker's time ranges
and a same-length label list, the number of output segments is at most the
number of input chunks, adjacent output segments are contiguous
(`segments[i].end = segments[i+1].start`), and adjacent output segments
never carry the same speaker label. -/
theorem C4_merger_invariants (audio : List ℚ) (labels : List ℤ)
    (_hlen : labels.length = (chunkTimes audio).length) :
    (mergeSegments (chunkTimes audio) labels).length ≤ (chunkTimes audio).length ∧
    ∀ i (h : i + 1 < (mergeSegments (chunkTimes audio) labels).length),
      ((mergeSegments (chunkTimes audio) labels).get ⟨i, Nat.lt_of_succ_lt h⟩).2.1 =
        ((mergeSegments (chunkTimes audio) labels).get ⟨i + 1, h⟩).1 ∧
      ((mergeSegments (chunkTimes audio) labels).get ⟨i, Nat.lt_of_succ_lt h⟩).2.2 ≠
        ((mergeSegments (chunkTimes audio) labels).get ⟨i + 1, h⟩).2.2 := by
  refine ⟨mergeSegments_length_le _ _, ?_⟩
  intro i h
  have hchain := mergeSegments_chunk_chain audio labels
  rw [List.chain'_iff_get] at hchain
  exact hchain i (by omega)

/-- Witness for C4 on a 2-second buffer (one kept chunk) with label list
`[0]`. -/
theorem C4_merger_invariants_witness :
    (mergeSegments (chunkTimes (List.replicate 32000 (0 : ℚ))) [0]).length ≤
      (chunkTimes (List.replicate 32000 (0 : ℚ))).length :=
  (C4_merger_invariants (List.replicate 32000 0) [0]
    (by rw [chunkTimes_rep32000_length]; rfl)).1

/-- C5 (confirmed): zero chunks survive exactly when the buffer is shorter
than the 2-second minimum, in which case `diarize` skips clustering and
merging (the result does not depend on `cluster` at all) and returns the
single segment `(0, duration, "Speaker 1")`; in particular any 1-second
buffer (16000 samples) yields exactly `[(0, 1, "Speaker 1")]`. -/
theorem C5_short_audio (cluster : List (List ℚ) → Option (List ℤ)) (audio : List ℚ) :
    (keptChunks audio = [] ↔ audio.length < SAMPLE_RATE * 2) ∧
    (keptChunks audio = [] →
      diarize cluster audio = [(0, (audio.length : ℚ) / (SAMPLE_RATE : ℚ), "Speaker 1")]) ∧
    (audio.length = 16000 → diarize cluster audio = [(0, 1, "Speaker 1")]) := by
  have hiff : keptChunks audio = [] ↔ audio.length < SAMPLE_RATE * 2 := by
    rw [keptChunks, List.map_eq_nil_iff, keptStarts_eq, List.map_eq_nil_iff,
      List.range_eq_nil]
    have h0 := @lt_keptCount_iff audio.length 0
    simp only [Nat.zero_mul, Nat.zero_add] at h0
    omega
  have hmain : keptChunks audio = [] →
      diarize cluster audio = [(0, (audio.length : ℚ) / (SAMPLE_RATE : ℚ), "Speaker 1")] := by
    intro h
    rw [diarize, h]
    rfl
  refine ⟨hiff, hmain, ?_⟩
  intro h16
  have hke : keptChunks audio = [] := hiff.mpr (by rw [h16]; norm_num [SAMPLE_RATE])
  rw [hmain hke, h16]
  norm_num [SAMPLE_RATE]

/-- Witness for C5: a 1-second all-zero buffer with an always-failing
clusterer yields the single full-duration segment. -/
theorem C5_short_audio_witness :
    diarize (fun _ => none) (List.replicate 16000 0) = [(0, 1, "Speaker 1")] :=
  (C5_short_audio (fun _ => none) (List.replicate 16000 0)).2.2
    (by rw [List.length_replicate])

/-- C6 (confirmed): with at least two kept chunks, if the clustering call
fails (returns `none`, modelling a raised exception) the failure does not
propagate: every chunk gets the single label `0`, and `diarize` returns
exactly one segment from the first kept chunk's start to the last kept
chunk's end, labelled `"Speaker 1"`. -/
theorem C6_clustering_failure (audio : List ℚ) (cluster : List (List ℚ) → Option (List ℤ))
    (h2 : 2 ≤ (keptChunks audio).length) (hfail : cluster (keptChunks audio) = none) :
    ∃ hne : chunkTimes audio ≠ [],
      diarize cluster audio =
        [(((chunkTimes audio).head hne).1, ((chunkTimes audio).getLast hne).2,
          "Speaker 1")] := by
  have htlen : (chunkTimes audio).length = (keptChunks audio).length := by
    rw [chunkTimes_length, keptChunks_length]
  have hne : chunkTimes audio ≠ [] := by
    intro hc
    rw [hc] at htlen
    simp at htlen
    omega
  refine ⟨hne, ?_⟩
  have hchne : keptChunks audio ≠ [] := by
    intro hc
    rw [hc] at h2
    simp at h2
  rw [diarize_nonempty cluster audio hchne, if_neg (by omega), hfail]
  show mergeSegments (chunkTimes audio)
    (List.replicate (keptChunks audio).length 0) = _
  rw [mergeSegments, show (keptChunks audio).length = (chunkTimes audio).length from
    htlen.symm]
  rw [zip_replicate_map (speakerOf (List.replicate (chunkTimes audio).length 0)) 0
    (chunkTimes audio)]
  rw [speakerOf_replicate_zero (chunkTimes audio).length (by omega)]
  exact mergeLoop_const_map (chunkTimes audio) "Speaker 1" hne

/-- Witness for C6 on a 20-second all-zero buffer (two kept chunks) with an
always-failing clusterer. -/
theorem C6_clustering_failure_witness :
    ∃ hne : chunkTimes (List.replicate 320000 (0 : ℚ)) ≠ [],
      diarize (fun _ => none) (List.replicate 320000 0) =
        [(((chunkTimes (List.replicate 320000 (0 : ℚ))).head hne).1,
          ((chunkTimes (List.replicate 320000 (0 : ℚ))).getLast hne).2, "Speaker 1")] :=
  C6_clustering_failure (List.replicate 320000 0) (fun _ => none)
    (by rw [keptChunks_rep320000_length]) rfl

/-- C7 (confirmed): every kept chunk has, after padding, exactly
`SAMPLE_RATE * CHUNK_DURATION_SEC` samples; every discarded window has
fewer than `SAMPLE_RATE * 2` raw samples; the reported time ranges depend
only on the buffer's length — never on the samples, hence never on padding;
and every reported end is clamped to the total duration. -/
theorem C7_chunk_invariants (audio : List ℚ) :
    (∀ c ∈ keptChunks audio, c.length = chunk_length) ∧
    (∀ i ∈ chunkStarts audio.length, i ∉ keptStarts audio →
      (rawWindow audio i).length < SAMPLE_RATE * 2) ∧
    (∀ audio' : List ℚ, audio'.length = audio.length → chunkTimes audio' = chunkTimes audio) ∧
    (∀ t ∈ chunkTimes audio, t.2 ≤ (audio.length : ℚ) / (SAMPLE_RATE : ℚ)) := by
  refine ⟨?_, ?_, ?_, ?_⟩
  · intro c hc
    obtain ⟨i, _, rfl⟩ := List.mem_map.mp hc
    exact padChunk_length _ (by rw [rawWindow_length]; exact min_le_left _ _)
  · intro i hmem hnot
    by_contra hcon
    push_neg at hcon
    exact hnot (List.mem_filter.mpr ⟨hmem, by simpa using hcon⟩)
  · intro audio' hlen
    rw [chunkTimes_eq, chunkTimes_eq, hlen]
  · exact chunkTimes_end_le_duration audio

/-- Witness for C7: the single kept chunk of a 2-second buffer is padded to
exactly `chunk_length` samples. -/
theorem C7_chunk_invariants_witness :
    (padChunk (rawWindow (List.replicate 32000 (0 : ℚ)) 0)).length = chunk_length :=
  (C7_chunk_invariants (List.replicate 32000 0)).1 _
    (by rw [keptChunks, keptStarts_rep32000, List.map_cons, List.map_nil]
        exact List.mem_singleton.mpr rfl)

/-- C8 (confirmed): the kept chunks' time ranges, in production order, have
non-decreasing starts and are gapless (each end equals the next start), the
first range starts at 0, the last range's end is at most the duration, and
the duration exceeds the last end by strictly less than 2 seconds (the only
possible gap is one trailing window discarded as shorter than the 2-second
minimum). -/
theorem C8_coverage (audio : List ℚ) (hne : chunkTimes audio ≠ []) :
    (∀ j (h : j + 1 < (chunkTimes audio).length),
      ((chunkTimes audio).get ⟨j, Nat.lt_of_succ_lt h⟩).1 ≤
          ((chunkTimes audio).get ⟨j + 1, h⟩).1 ∧
      ((chunkTimes audio).get ⟨j, Nat.lt_of_succ_lt h⟩).2 =
          ((chunkTimes audio).get ⟨j + 1, h⟩).1) ∧
    ((chunkTimes audio).head hne).1 = 0 ∧
    ((chunkTimes audio).getLast hne).2 ≤ (audio.length : ℚ) / (SAMPLE_RATE : ℚ) ∧
    (audio.length : ℚ) / (SAMPLE_RATE : ℚ) - ((chunkTimes audio).getLast hne).2 < 2 := by
  refine ⟨?_, chunkTimes_head_start audio hne, ?_, chunkTimes_trailing_gap audio hne⟩
  · intro j h
    exact ⟨chunkTimes_start_mono audio j h, chunkTimes_gapless audio j h⟩
  · exact chunkTimes_end_le_duration audio _ (List.getLast_mem hne)

/-- Witness for C8 on a 2-second buffer. -/
theorem C8_coverage_witness :
    ((chunkTimes (List.replicate 32000 (0 : ℚ))).head chunkTimes_rep32000_ne).1 = 0 :=
  (C8_coverage (List.replicate 32000 0) chunkTimes_rep32000_ne).2.1

/-- C9 (confirmed): with exactly one kept chunk, `diarize` never invokes the
clustering function (the result is the same for every `cluster`): the chunk
gets the single fixed label, and the output is exactly one segment equal to
that chunk's recorded time range. -/
theorem C9_single_chunk (audio : List ℚ) (h1 : (keptChunks audio).length = 1)
    (cluster : List (List ℚ) → Option (List ℤ)) :
    ∃ t, chunkTimes audio = [t] ∧ diarize cluster audio = [(t.1, t.2, "Speaker 1")] := by
  have hlen : (chunkTimes audio).length = 1 := by
    rw [chunkTimes_length, ← keptChunks_length audio, h1]
  obtain ⟨t, ht⟩ := List.length_eq_one.mp hlen
  refine ⟨t, ht, ?_⟩
  have hchne : keptChunks audio ≠ [] := by
    intro hc
    rw [hc] at h1
    simp at h1
  rw [diarize_nonempty cluster audio hchne, if_pos (by omega), ht, mergeSegments]
  show mergeLoop [(t, speakerOf (List.replicate 1 (0 : ℤ)) 0)] none [] = _
  rw [speakerOf_replicate_zero 1 one_ne_zero]
  rfl

/-- Witness for C9 on a 2-second buffer (exactly one kept chunk). -/
theorem C9_single_chunk_witness :
    ∃ t, chunkTimes (List.replicate 32000 (0 : ℚ)) = [t] ∧
      diarize (fun _ => none) (List.replicate 32000 0) = [(t.1, t.2, "Speaker 1")] :=
  C9_single_chunk (List.replicate 32000 0)
    (by rw [keptChunks_rep32000_length]) (fun _ => none)

/-- C10 (confirmed): whenever at least one chunk is kept, the first kept
chunk's start is exactly 0, and — for any clusterer honouring the
same-length output contract — the first segment returned by `diarize`
starts at 0 (the chunker can only discard a trailing window, so no leading
gap is possible). -/
theorem C10_first_segment_zero (audio : List ℚ) (hne : chunkTimes audio ≠ [])
    (cluster : List (List ℚ) → Option (List ℤ))
    (hwf : ∀ cs ls, cluster cs = some ls → ls.length = cs.length) :
    ((chunkTimes audio).head hne).1 = 0 ∧
    ∃ e spk tl, diarize cluster audio = ((0 : ℚ), e, spk) :: tl := by
  have hhead := chunkTimes_head_start audio hne
  refine ⟨hhead, ?_⟩
  have htlen : (chunkTimes audio).length = (keptChunks audio).length := by
    rw [chunkTimes_length, keptChunks_length]
  have htpos : 0 < (chunkTimes audio).length := List.length_pos.mpr hne
  have hchne : keptChunks audio ≠ [] := by
    intro hc
    rw [hc, List.length_nil] at htlen
    omega
  rw [diarize_nonempty cluster audio hchne]
  have hlne : (if (keptChunks audio).length < 2 then [0]
      else
        match cluster (keptChunks audio) with
        | some ls => ls
        | none => List.replicate (keptChunks audio).length 0) ≠ ([] : List ℤ) := by
    split
    · simp
    · rename_i hge
      cases hc : cluster (keptChunks audio) with
      | some ls =>
        have hl := hwf _ _ hc
        intro hcon
        change ls = [] at hcon
        rw [hcon, List.length_nil] at hl
        omega
      | none =>
        intro hcon
        change List.replicate (keptChunks audio).length 0 = [] at hcon
        have h0 := congrArg List.length hcon
        rw [List.length_replicate, List.length_nil] at h0
        omega
  obtain ⟨e, spk, tl, heq⟩ := mergeSegments_head (chunkTimes audio) _ hne hlne
  rw [heq, hhead]
  exact ⟨e, spk, tl, rfl⟩

/-- Witness for C10 on a 2-second buffer with the always-failing clusterer
(which vacuously honours the length contract). -/
theorem C10_first_segment_zero_witness :
    ((chunkTimes (List.replicate 32000 (0 : ℚ))).head chunkTimes_rep32000_ne).1 = 0 :=
  (C10_first_segment_zero (List.replicate 32000 0) chunkTimes_rep32000_ne
    (fun _ => none) (fun _ _ h => by cases h)).1

end VoiceToMd
